import Mathlib

/-!
# Verification of the HF-fee-simulator core

Shallow embedding of the fee-simulation engine (`feesim/engine.py`) and the
performance-metric routines (`feesim/metrics.py`, `performance_metrics` in
`feesim/engine.py`) of the HF-fee-simulator repository, together with proofs
and refutations of the specified properties.

Conventions of the embedding:
* Python floats are modelled as exact numbers: `ℚ` for the fee engine
  (whose arithmetic is field arithmetic plus `max`/`min`), `ℝ` for the
  metric routines (which take square roots).
* Python `float` division by zero raises `ZeroDivisionError`; in `ℚ`/`ℝ`
  division by zero yields `0`.  Every claim settled below keeps the
  divisors away from zero (positive starting AUM), so the two semantics
  agree on the inputs that matter.
* A metric that can raise (numpy broadcast failure) or return the `NaN`
  sentinel is embedded with an explicit result type `MetricResult`.
-/

/-- One waterfall tier, as the dict `{threshold: ..., manager_share: ...}`
built by the app: `threshold` is the upper bound of the tier as a fraction of
starting AUM, `none` standing for the Python `None` that the engine turns into
`float(inf)`. -/
structure Tier where
  threshold : Option ℚ
  manager_share : ℚ
deriving DecidableEq, Repr

/-- A fee-scheme configuration, as the dict consumed by
`calculate_scheme`: keys `hwm`, `tiered`, `tiers`, `mgmt`, `perf`,
`hurdle` (the `name` key never affects the numbers and is dropped). -/
structure Scheme where
  hwm : Bool
  tiered : Bool
  tiers : List Tier
  mgmt : ℚ
  perf : ℚ
  hurdle : ℚ
deriving DecidableEq, Repr

/-- The per-tier loop of the tiered branch of `calculate_scheme`
(engine.py lines 37-44), with accumulator arguments `lower`, `remaining`
and `fee_prop` exactly as in the source, over exact rationals.  A `none`
threshold is turned into a `float(inf)` upper bound by the source: there
`slice_width = min(inf - lower, remaining) = remaining` and the recursion
returns.  That return is faithful except when another unbounded tier
immediately follows a consumed one: there the float arithmetic of the
source yields `slice_width = min(inf - inf, 0) = NaN`, no break, and a
`NaN` fee.  `waterfallLoopPy` below runs the same loop over IEEE-style
values so that this path is represented exactly, and
`waterfallLoopPy_agrees` delimits where the two coincide. -/
def waterfallLoop : List Tier → ℚ → ℚ → ℚ → ℚ
  | [], _, _, fee_prop => fee_prop
  | t :: rest, lower, remaining, fee_prop =>
    match t.threshold with
    | none =>
      if remaining ≤ 0 then fee_prop
      else fee_prop + remaining * t.manager_share
    | some upper =>
      let slice_width := min (upper - lower) remaining
      if slice_width ≤ 0 then fee_prop
      else waterfallLoop rest upper (remaining - slice_width)
        (fee_prop + slice_width * t.manager_share)

/-- The tiered performance-fee computation of `calculate_scheme`
(engine.py lines 32-45): convert the gain to a proportion of starting AUM,
walk the tiers, convert back. -/
def waterfallFee (tiers : List Tier) (aum_start gain_excess : ℚ) : ℚ :=
  waterfallLoop tiers 0 (gain_excess / aum_start) 0 * aum_start

/-! ### Float-faithful model of the waterfall loop

`waterfallLoop` returns at an unbounded tier.  That matches the source
whenever no unbounded tier is immediately followed by another unbounded
tier: a bounded follower computes `slice_width = min(u - inf, 0) = -inf ≤ 0`
and breaks with the same fee.  With two unbounded tiers in a row, however,
the source computes `slice_width = min(inf - inf, 0) = NaN`, `NaN <= 0` is
false, and the fee becomes `NaN`.  `waterfallLoopPy` below runs the same
loop over an explicit IEEE-style value type so that this corner is
represented exactly; `waterfallLoopPy_agrees` proves the two agree away
from it. -/

/-- The IEEE double values the waterfall loop can produce: a finite number
(kept exact as a rational), the two infinities, and `NaN`. -/
inductive PyFloat where
  | num : ℚ → PyFloat
  | inf : PyFloat
  | ninf : PyFloat
  | nan : PyFloat
deriving DecidableEq, Repr

/-- IEEE subtraction on the modelled values (`inf - inf = NaN`). -/
def PyFloat.sub : PyFloat → PyFloat → PyFloat
  | nan, _ => nan
  | _, nan => nan
  | num a, num b => num (a - b)
  | num _, inf => ninf
  | num _, ninf => inf
  | inf, inf => nan
  | inf, _ => inf
  | ninf, ninf => nan
  | ninf, _ => ninf

/-- IEEE addition on the modelled values. -/
def PyFloat.add : PyFloat → PyFloat → PyFloat
  | nan, _ => nan
  | _, nan => nan
  | inf, ninf => nan
  | ninf, inf => nan
  | inf, _ => inf
  | _, inf => inf
  | ninf, _ => ninf
  | _, ninf => ninf
  | num a, num b => num (a + b)

/-- IEEE multiplication by a finite scalar (`±inf * 0 = NaN`). -/
def PyFloat.smul : PyFloat → ℚ → PyFloat
  | nan, _ => nan
  | num a, c => num (a * c)
  | inf, c => if c = 0 then nan else if 0 < c then inf else ninf
  | ninf, c => if c = 0 then nan else if 0 < c then ninf else inf

/-- IEEE `<`: any comparison against `NaN` is false. -/
def pylt : PyFloat → PyFloat → Bool
  | .nan, _ => false
  | _, .nan => false
  | .num a, .num b => decide (a < b)
  | .num _, .inf => true
  | .num _, .ninf => false
  | .inf, _ => false
  | .ninf, .ninf => false
  | .ninf, _ => true

/-- IEEE `<=`: any comparison against `NaN` is false. -/
def pyle : PyFloat → PyFloat → Bool
  | .nan, _ => false
  | _, .nan => false
  | .num a, .num b => decide (a ≤ b)
  | .num _, .inf => true
  | .num _, .ninf => false
  | .inf, .inf => true
  | .inf, _ => false
  | .ninf, _ => true

/-- CPython `min(a, b)`: return `a` unless `b < a` — so `min(NaN, x) = NaN`
and `min(x, NaN) = x`. -/
def pymin (a b : PyFloat) : PyFloat :=
  if pylt b a then b else a

/-- The per-tier loop of the tiered branch run over IEEE-style values,
operation for operation as in engine.py lines 37-44: `upper` is
`float(inf)` for a `None` threshold, `slice_width = min(upper - lower,
remaining)`, break on `slice_width <= 0`, accumulate
`slice_width * manager_share`. -/
def waterfallLoopPy : List Tier → PyFloat → PyFloat → PyFloat → PyFloat
  | [], _, _, fee_prop => fee_prop
  | t :: rest, lower, remaining, fee_prop =>
    let upper : PyFloat := match t.threshold with
      | none => PyFloat.inf
      | some u => PyFloat.num u
    let slice_width := pymin (upper.sub lower) remaining
    if pyle slice_width (PyFloat.num 0) then fee_prop
    else waterfallLoopPy rest upper (remaining.sub slice_width)
      (fee_prop.add (slice_width.smul t.manager_share))

/-- The tiered performance fee under the float-faithful loop:
`fee_prop * aum_start` after walking the tiers on
`remaining = gain_excess / aum_start`. -/
def waterfallFeePy (tiers : List Tier) (aum_start gain_excess : ℚ) : PyFloat :=
  (waterfallLoopPy tiers (PyFloat.num 0) (PyFloat.num (gain_excess / aum_start))
    (PyFloat.num 0)).smul aum_start

/-- The engine-internal state carried across periods by `calculate_scheme`:
the variables `aum` and `hwm_value`. -/
structure SimState where
  aum : ℚ
  hwm_value : ℚ
deriving DecidableEq, Repr

/-- One row of the `records` list built by `calculate_scheme`
(the `Date` column is threaded through unchanged and is dropped here). -/
structure PeriodResult where
  grossReturn : ℚ
  netReturn : ℚ
  mgmtFeeRevenue : ℚ
  perfFeeRevenue : ℚ
  aumEnd : ℚ
deriving DecidableEq, Repr

/-- `mgmt_rev = scheme.get(mgmt, 0) / 12 * aum_start` (engine.py line 24).
Note that the source computes this for every scheme, tiered or not. -/
def mgmtFee (s : Scheme) (aum_start : ℚ) : ℚ :=
  s.mgmt / 12 * aum_start

/-- `gain_excess = max(0, aum_after - (hwm_value if scheme.get(hwm, False)
else aum_start))` (engine.py lines 25 and 28). -/
def gainExcess (s : Scheme) (st : SimState) (gross : ℚ) : ℚ :=
  max 0 (st.aum * (1 + gross) - (if s.hwm then st.hwm_value else st.aum))

/-- The performance-fee block of `calculate_scheme` (engine.py lines 31-48):
the tiered branch calls the waterfall, the flat branch charges
`perf * max(0, gross - hurdle/12) * aum_start`, both gated by
`gain_excess > 0`. -/
def perfFee (s : Scheme) (st : SimState) (gross : ℚ) : ℚ :=
  if s.tiered = true ∧ 0 < gainExcess s st gross then
    waterfallFee s.tiers st.aum (gainExcess s st gross)
  else if s.tiered = false ∧ 0 < gainExcess s st gross then
    s.perf * max 0 (gross - s.hurdle / 12) * st.aum
  else 0

/-- One iteration of the `for row in df.itertuples(...)` loop of
`calculate_scheme` (engine.py lines 19-64): emit the period record and the
updated `(aum, hwm_value)` state.  `net_return = (aum_end / aum_start) - 1`
is total here (`x / 0 = 0` in `ℚ`) where Python would raise
`ZeroDivisionError` on `aum_start = 0`; the claims below all keep
`aum_start` positive. -/
def stepScheme (s : Scheme) (st : SimState) (gross : ℚ) : PeriodResult × SimState :=
  let aum_start := st.aum
  let mgmt_rev := mgmtFee s aum_start
  let aum_after := aum_start * (1 + gross)
  let perf_rev := perfFee s st gross
  let aum_end := aum_after - mgmt_rev - perf_rev
  let hwm' := if s.hwm then max st.hwm_value aum_end else st.hwm_value
  (⟨gross, aum_end / aum_start - 1, mgmt_rev, perf_rev, aum_end⟩,
   ⟨aum_end, hwm'⟩)

/-- The loop of `calculate_scheme` as a fold producing the record list. -/
def runScheme (s : Scheme) : SimState → List ℚ → List PeriodResult
  | _, [] => []
  | st, g :: gs => (stepScheme s st g).1 :: runScheme s (stepScheme s st g).2 gs

/-- `calculate_scheme df scheme initial_aum` restricted to its numeric
content: the state starts at `aum = hwm_value = initial_aum`
(engine.py lines 16-17) and the gross-return column is folded in order. -/
def simulate (s : Scheme) (initial_aum : ℚ) (gs : List ℚ) : List PeriodResult :=
  runScheme s ⟨initial_aum, initial_aum⟩ gs

/-- The successive engine states (initial state included), the trace of the
state machine run by `calculate_scheme`. -/
def simStates (s : Scheme) (initial_aum : ℚ) (gs : List ℚ) : List SimState :=
  List.scanl (fun st g => (stepScheme s st g).2) ⟨initial_aum, initial_aum⟩ gs

/-! ## Helper lemmas on the engine -/

/-- The high-water-mark component never decreases in one engine step
(when `hwm` is off it is left unchanged). -/
lemma hwm_le_stepScheme (s : Scheme) (st : SimState) (g : ℚ) :
    st.hwm_value ≤ ((stepScheme s st g).2).hwm_value := by
  unfold stepScheme
  dsimp only
  split
  · exact le_max_left _ _
  · exact le_rfl

/-- Every state reachable from `st` carries a high-water mark at least the high-water mark of `st`. -/
lemma hwm_le_of_mem_scanl (s : Scheme) :
    ∀ (gs : List ℚ) (st : SimState),
      ∀ st' ∈ List.scanl (fun st g => (stepScheme s st g).2) st gs,
        st.hwm_value ≤ st'.hwm_value := by
  intro gs
  induction gs with
  | nil =>
    intro st st' h
    simp only [List.scanl_nil, List.mem_singleton] at h
    exact h ▸ le_rfl
  | cons g gs ih =>
    intro st st' h
    rw [List.scanl_cons] at h
    rcases List.mem_cons.mp h with rfl | h'
    · exact le_rfl
    · exact le_trans (hwm_le_stepScheme s st g) (ih _ st' h')

/-- The state trace of the engine has pairwise non-decreasing high-water
marks. -/
lemma hwm_pairwise_scanl (s : Scheme) :
    ∀ (gs : List ℚ) (st : SimState),
      (List.scanl (fun st g => (stepScheme s st g).2) st gs).Pairwise
        (fun a b => a.hwm_value ≤ b.hwm_value) := by
  intro gs
  induction gs with
  | nil => intro st; simp
  | cons g gs ih =>
    intro st
    rw [List.scanl_cons]
    refine List.Pairwise.cons ?_ (ih _)
    intro b hb
    exact le_trans (hwm_le_stepScheme s st g) (hwm_le_of_mem_scanl s gs _ b hb)

/-! ## Helper lemmas on the waterfall loop -/

/-- The loop is affine in its fee accumulator. -/
lemma waterfallLoop_fee_shift :
    ∀ (tiers : List Tier) (lo r f : ℚ),
      waterfallLoop tiers lo r f = f + waterfallLoop tiers lo r 0 := by
  intro tiers
  induction tiers with
  | nil => intro lo r f; simp [waterfallLoop]
  | cons t rest ih =>
    intro lo r f
    cases h : t.threshold with
    | none =>
      simp only [waterfallLoop, h]
      split <;> ring
    | some u =>
      simp only [waterfallLoop, h]
      by_cases hs : min (u - lo) r ≤ 0
      · simp [hs]
      · rw [if_neg hs, if_neg hs,
          ih u (r - min (u - lo) r) (f + min (u - lo) r * t.manager_share),
          ih u (r - min (u - lo) r) (0 + min (u - lo) r * t.manager_share)]
        ring

/-- With non-negative manager shares the loop never accumulates a negative
fee proportion. -/
lemma waterfallLoop_nonneg :
    ∀ (tiers : List Tier) (lo r : ℚ),
      (∀ t ∈ tiers, 0 ≤ t.manager_share) → 0 ≤ waterfallLoop tiers lo r 0 := by
  intro tiers
  induction tiers with
  | nil => intro lo r _; simp [waterfallLoop]
  | cons t rest ih =>
    intro lo r hsh
    have hsh_t : 0 ≤ t.manager_share := hsh t (List.mem_cons_self t rest)
    have hsh' : ∀ t' ∈ rest, 0 ≤ t'.manager_share :=
      fun t' h => hsh t' (List.mem_cons_of_mem t h)
    cases h : t.threshold with
    | none =>
      simp only [waterfallLoop, h]
      split
      · exact le_rfl
      · next hr =>
        have := mul_nonneg (not_le.mp hr).le hsh_t
        linarith
    | some u =>
      simp only [waterfallLoop, h]
      split
      · exact le_rfl
      · next hs =>
        rw [waterfallLoop_fee_shift]
        have h₁ := mul_nonneg (not_le.mp hs).le hsh_t
        have h₂ := ih u (r - min (u - lo) r) hsh'
        linarith

/-- With manager shares at most one the accumulated fee proportion never
exceeds the remaining gain proportion. -/
lemma waterfallLoop_le :
    ∀ (tiers : List Tier) (lo r : ℚ),
      (∀ t ∈ tiers, t.manager_share ≤ 1) →
      waterfallLoop tiers lo r 0 ≤ max r 0 := by
  intro tiers
  induction tiers with
  | nil => intro lo r _; simp [waterfallLoop]
  | cons t rest ih =>
    intro lo r hsh
    have hsh_t : t.manager_share ≤ 1 := hsh t (List.mem_cons_self t rest)
    have hsh' : ∀ t' ∈ rest, t'.manager_share ≤ 1 :=
      fun t' h => hsh t' (List.mem_cons_of_mem t h)
    cases h : t.threshold with
    | none =>
      simp only [waterfallLoop, h]
      split
      · exact le_max_right _ _
      · next hr =>
        have hr' : 0 < r := not_le.mp hr
        have := mul_le_of_le_one_right hr'.le hsh_t
        rw [max_eq_left hr'.le]
        linarith
    | some u =>
      simp only [waterfallLoop, h]
      split
      · exact le_max_right _ _
      · next hs =>
        have hm : 0 < min (u - lo) r := not_le.mp hs
        have hmr : min (u - lo) r ≤ r := min_le_right _ _
        have hr' : 0 < r := lt_of_lt_of_le hm hmr
        rw [waterfallLoop_fee_shift, max_eq_left hr'.le]
        have h₁ := mul_le_of_le_one_right hm.le hsh_t
        have h₂ := ih u (r - min (u - lo) r) hsh'
        rw [max_eq_left (by linarith : (0:ℚ) ≤ r - min (u - lo) r)] at h₂
        linarith

/-- After consuming a slice, monotone remainders stay monotone. -/
lemma sub_min_mono (w r₁ r₂ : ℚ) (h : r₁ ≤ r₂) :
    r₁ - min w r₁ ≤ r₂ - min w r₂ := by
  rcases le_total w r₁ with hw | hw
  · rw [min_eq_left hw, min_eq_left (hw.trans h)]
    linarith
  · rw [min_eq_right hw]
    have := min_le_right w r₂
    linarith

/-- Monotonicity of the loop in the remaining gain proportion. -/
lemma waterfallLoop_mono :
    ∀ (tiers : List Tier) (lo r₁ r₂ : ℚ),
      (∀ t ∈ tiers, 0 ≤ t.manager_share) → r₁ ≤ r₂ →
      waterfallLoop tiers lo r₁ 0 ≤ waterfallLoop tiers lo r₂ 0 := by
  intro tiers
  induction tiers with
  | nil => intro lo r₁ r₂ _ _; exact le_rfl
  | cons t rest ih =>
    intro lo r₁ r₂ hsh h12
    have hsh_t : 0 ≤ t.manager_share := hsh t (List.mem_cons_self t rest)
    have hsh' : ∀ t' ∈ rest, 0 ≤ t'.manager_share :=
      fun t' h => hsh t' (List.mem_cons_of_mem t h)
    cases h : t.threshold with
    | none =>
      simp only [waterfallLoop, h]
      by_cases h₂ : r₂ ≤ 0
      · rw [if_pos (h12.trans h₂), if_pos h₂]
      · rw [if_neg h₂]
        by_cases h₁ : r₁ ≤ 0
        · rw [if_pos h₁]
          have := mul_nonneg (not_le.mp h₂).le hsh_t
          linarith
        · rw [if_neg h₁]
          have := mul_le_mul_of_nonneg_right h12 hsh_t
          linarith
    | some u =>
      simp only [waterfallLoop, h]
      have hmm : min (u - lo) r₁ ≤ min (u - lo) r₂ := min_le_min le_rfl h12
      by_cases h₂ : min (u - lo) r₂ ≤ 0
      · rw [if_pos (hmm.trans h₂), if_pos h₂]
      · rw [if_neg h₂, waterfallLoop_fee_shift rest u (r₂ - min (u - lo) r₂)
          (0 + min (u - lo) r₂ * t.manager_share)]
        have hnn₂ := waterfallLoop_nonneg rest u (r₂ - min (u - lo) r₂) hsh'
        by_cases h₁ : min (u - lo) r₁ ≤ 0
        · rw [if_pos h₁]
          have := mul_nonneg (not_le.mp h₂).le hsh_t
          linarith
        · rw [if_neg h₁, waterfallLoop_fee_shift rest u (r₁ - min (u - lo) r₁)
            (0 + min (u - lo) r₁ * t.manager_share)]
          have hkey := sub_min_mono (u - lo) r₁ r₂ h12
          have hrec := ih u (r₁ - min (u - lo) r₁) (r₂ - min (u - lo) r₂) hsh' hkey
          have := mul_le_mul_of_nonneg_right hmm hsh_t
          linarith

/-- The loop is 1-Lipschitz (from above) in the remaining gain proportion
when all manager shares are at most one. -/
lemma waterfallLoop_lipschitz :
    ∀ (tiers : List Tier) (lo r₁ r₂ : ℚ),
      (∀ t ∈ tiers, t.manager_share ≤ 1) → r₁ ≤ r₂ →
      waterfallLoop tiers lo r₂ 0 - waterfallLoop tiers lo r₁ 0 ≤ r₂ - r₁ := by
  intro tiers
  induction tiers with
  | nil => intro lo r₁ r₂ _ h; simp [waterfallLoop]; linarith
  | cons t rest ih =>
    intro lo r₁ r₂ hsh h12
    have hsh_t : t.manager_share ≤ 1 := hsh t (List.mem_cons_self t rest)
    have hsh' : ∀ t' ∈ rest, t'.manager_share ≤ 1 :=
      fun t' h => hsh t' (List.mem_cons_of_mem t h)
    cases h : t.threshold with
    | none =>
      simp only [waterfallLoop, h]
      by_cases h₂ : r₂ ≤ 0
      · rw [if_pos (h12.trans h₂), if_pos h₂]
        linarith
      · rw [if_neg h₂]
        by_cases h₁ : r₁ ≤ 0
        · rw [if_pos h₁]
          have := mul_le_of_le_one_right (not_le.mp h₂).le hsh_t
          linarith
        · rw [if_neg h₁]
          have : (r₂ - r₁) * t.manager_share ≤ r₂ - r₁ :=
            mul_le_of_le_one_right (by linarith) hsh_t
          nlinarith [this]
    | some u =>
      simp only [waterfallLoop, h]
      have hmm : min (u - lo) r₁ ≤ min (u - lo) r₂ := min_le_min le_rfl h12
      by_cases h₂ : min (u - lo) r₂ ≤ 0
      · rw [if_pos (hmm.trans h₂), if_pos h₂]
        linarith
      · rw [if_neg h₂, waterfallLoop_fee_shift rest u (r₂ - min (u - lo) r₂)
          (0 + min (u - lo) r₂ * t.manager_share)]
        have hm₂ : 0 < min (u - lo) r₂ := not_le.mp h₂
        have hm₂r : min (u - lo) r₂ ≤ r₂ := min_le_right _ _
        by_cases h₁ : min (u - lo) r₁ ≤ 0
        · rw [if_pos h₁]
          have hw : 0 < u - lo := lt_min_iff.mp hm₂ |>.1
          have hr₁ : r₁ ≤ 0 := by
            by_contra hc
            push_neg at hc
            exact absurd (lt_min_iff.mpr ⟨hw, hc⟩) (not_lt.mpr h₁)
          have hb := waterfallLoop_le rest u (r₂ - min (u - lo) r₂) hsh'
          rw [max_eq_left (by linarith)] at hb
          have := mul_le_of_le_one_right hm₂.le hsh_t
          linarith
        · rw [if_neg h₁, waterfallLoop_fee_shift rest u (r₁ - min (u - lo) r₁)
            (0 + min (u - lo) r₁ * t.manager_share)]
          have hkey := sub_min_mono (u - lo) r₁ r₂ h12
          have hrec := ih u (r₁ - min (u - lo) r₁) (r₂ - min (u - lo) r₂) hsh' hkey
          have hprod : (min (u - lo) r₂ - min (u - lo) r₁) * t.manager_share ≤
              min (u - lo) r₂ - min (u - lo) r₁ :=
            mul_le_of_le_one_right (by linarith) hsh_t
          nlinarith [hprod]

/-- With nothing gained, nothing is charged (any tier list). -/
lemma waterfallLoop_zero (tiers : List Tier) (lo : ℚ) :
    waterfallLoop tiers lo 0 0 = 0 := by
  cases tiers with
  | nil => rfl
  | cons t rest =>
    cases h : t.threshold with
    | none => simp [waterfallLoop, h]
    | some u =>
      simp only [waterfallLoop, h]
      rw [if_pos (min_le_right _ _)]

/-- Thresholds all bounded and strictly ascending above `lo`. -/
def boundedAscFrom : ℚ → List Tier → Prop
  | _, [] => True
  | lo, t :: rest => ∃ u, t.threshold = some u ∧ lo < u ∧ boundedAscFrom u rest

/-- The last tier of the list has upper threshold `u`. -/
def lastThresholdIs : List Tier → ℚ → Prop
  | [], _ => False
  | [t], u => t.threshold = some u
  | _ :: rest, u => lastThresholdIs rest u

/-- The well-formedness invariant of the spec on a tier list: non-empty,
thresholds strictly ascending, and exactly the last tier unbounded. -/
def wellFormedTiersFrom : ℚ → List Tier → Prop
  | _, [] => False
  | _, [t] => t.threshold = none
  | lo, t :: rest => ∃ u, t.threshold = some u ∧ lo < u ∧ wellFormedTiersFrom u rest

/-- Well-formed tier list (ascending from zero, unbounded last tier). -/
def wellFormedTiers (tiers : List Tier) : Prop :=
  wellFormedTiersFrom 0 tiers

/-- All manager shares lie in `[0, 1]`. -/
def sharesIn01 (tiers : List Tier) : Prop :=
  ∀ t ∈ tiers, 0 ≤ t.manager_share ∧ t.manager_share ≤ 1

/-- In a bounded ascending tier list the last threshold dominates the
starting bound. -/
lemma lt_of_boundedAsc_last :
    ∀ (tiers : List Tier) (lo u : ℚ), boundedAscFrom lo tiers →
      lastThresholdIs tiers u → lo < u := by
  intro tiers
  induction tiers with
  | nil => intro lo u _ h; exact h.elim
  | cons t rest ih =>
    intro lo u hasc hlast
    obtain ⟨v, hth, hlo, hrest⟩ := hasc
    cases rest with
    | nil =>
      simp only [lastThresholdIs] at hlast
      rw [hth] at hlast
      exact Option.some.inj hlast ▸ hlo
    | cons t' rest' =>
      simp only [lastThresholdIs] at hlast
      exact lt_trans hlo (ih v u hrest hlast)

/-- Once the remaining gain proportion covers all bounded tiers, the result of the loop no longer depends on it: every slice is the full tier width. -/
lemma waterfallLoop_freeze :
    ∀ (tiers : List Tier) (lo T r₁ r₂ f : ℚ), boundedAscFrom lo tiers →
      lastThresholdIs tiers T → T - lo ≤ r₁ → T - lo ≤ r₂ →
      waterfallLoop tiers lo r₁ f = waterfallLoop tiers lo r₂ f := by
  intro tiers
  induction tiers with
  | nil => intro lo T r₁ r₂ f _ h; exact h.elim
  | cons t rest ih =>
    intro lo T r₁ r₂ f hasc hlast h₁ h₂
    obtain ⟨u, hth, hlo, hrest⟩ := hasc
    have hw : 0 < u - lo := sub_pos.mpr hlo
    cases rest with
    | nil =>
      simp only [lastThresholdIs] at hlast
      rw [hth] at hlast
      have huT : u = T := Option.some.inj hlast
      subst huT
      simp only [waterfallLoop, hth]
      rw [min_eq_left h₁, min_eq_left h₂, if_neg (not_le.mpr hw)]
    | cons t' rest' =>
      simp only [lastThresholdIs] at hlast
      have huT : u < T := lt_of_boundedAsc_last (t' :: rest') u T hrest hlast
      simp only [waterfallLoop, hth]
      rw [min_eq_left (by linarith), min_eq_left (by linarith),
        if_neg (not_le.mpr hw), if_neg (not_le.mpr hw)]
      exact ih u T _ _ _ hrest hlast (by linarith) (by linarith)

/-- No unbounded (`none`) tier is immediately followed by another
unbounded tier — the condition under which the float loop stays finite. -/
def noConsecutiveUnbounded : List Tier → Prop
  | [] => True
  | [_] => True
  | t :: t' :: rest =>
    ¬(t.threshold = none ∧ t'.threshold = none) ∧
      noConsecutiveUnbounded (t' :: rest)

lemma noConsecutiveUnbounded_tail {t : Tier} {rest : List Tier}
    (h : noConsecutiveUnbounded (t :: rest)) : noConsecutiveUnbounded rest := by
  cases rest with
  | nil => trivial
  | cons t' r => exact h.2

/-- CPython `min` agrees with the order-theoretic `min` on finite
values. -/
lemma pymin_num (a b : ℚ) :
    pymin (PyFloat.num a) (PyFloat.num b) = PyFloat.num (min a b) := by
  unfold pymin pylt
  by_cases h : b < a
  · simp [h, min_eq_right h.le]
  · simp [h, min_eq_left (not_lt.mp h)]

/-- Away from the double-unbounded corner, the float loop computes exactly
the rational loop: a bounded tier behaves identically, and after a
consumed unbounded tier the next tier (bounded, by the hypothesis) breaks
immediately with `slice_width = -inf`. -/
lemma waterfallLoopPy_agrees :
    ∀ (tiers : List Tier) (lo r f : ℚ), noConsecutiveUnbounded tiers →
      waterfallLoopPy tiers (PyFloat.num lo) (PyFloat.num r) (PyFloat.num f) =
        PyFloat.num (waterfallLoop tiers lo r f) := by
  intro tiers
  induction tiers with
  | nil => intro lo r f _; rfl
  | cons t rest ih =>
    intro lo r f hnc
    cases hth : t.threshold with
    | some u =>
      simp only [waterfallLoopPy, waterfallLoop, hth]
      rw [show PyFloat.sub (PyFloat.num u) (PyFloat.num lo) =
        PyFloat.num (u - lo) from rfl, pymin_num]
      by_cases hs : min (u - lo) r ≤ 0
      · have hb : pyle (PyFloat.num (min (u - lo) r)) (PyFloat.num 0) = true := by
          simp [pyle, hs]
        rw [if_pos hb, if_pos hs]
      · have hb : ¬ pyle (PyFloat.num (min (u - lo) r)) (PyFloat.num 0) = true := by
          simp [pyle, hs]
        rw [if_neg hb, if_neg hs]
        exact ih u (r - min (u - lo) r) (f + min (u - lo) r * t.manager_share)
          (noConsecutiveUnbounded_tail hnc)
    | none =>
      simp only [waterfallLoopPy, waterfallLoop, hth]
      rw [show pymin (PyFloat.sub PyFloat.inf (PyFloat.num lo)) (PyFloat.num r) =
        PyFloat.num r from rfl]
      by_cases hr : r ≤ 0
      · have hb : pyle (PyFloat.num r) (PyFloat.num 0) = true := by
          simp [pyle, hr]
        rw [if_pos hb, if_pos hr]
      · have hb : ¬ pyle (PyFloat.num r) (PyFloat.num 0) = true := by
          simp [pyle, hr]
        rw [if_neg hb, if_neg hr]
        cases rest with
        | nil => rfl
        | cons t' rest' =>
          have h2 : t'.threshold ≠ none := fun hh => hnc.1 ⟨hth, hh⟩
          obtain ⟨u', hu'⟩ : ∃ u', t'.threshold = some u' := by
            cases ht' : t'.threshold with
            | none => exact absurd ht' h2
            | some v => exact ⟨v, rfl⟩
          simp only [waterfallLoopPy, hu']
          rfl

/-- On finite inputs the float fee agrees with the rational fee whenever
no two unbounded tiers are adjacent. -/
lemma waterfallFeePy_agrees (tiers : List Tier) (aum g : ℚ)
    (h : noConsecutiveUnbounded tiers) :
    waterfallFeePy tiers aum g = PyFloat.num (waterfallFee tiers aum g) := by
  unfold waterfallFeePy waterfallFee
  rw [waterfallLoopPy_agrees tiers 0 (g / aum) 0 h]
  rfl

/-! ## Claims about the waterfall -/

/-- C4: for a fixed positive starting AUM and a fixed well-formed tier list
(ascending thresholds, unbounded last tier, shares in `[0,1]`), the
waterfall fee, as a function of the non-negative gain, is monotone
non-decreasing, (uniformly) continuous — in particular across every tier
boundary — and exactly `0` at gain `0`. -/
theorem c4_waterfall_props (tiers : List Tier) (aum : ℚ) (haum : 0 < aum)
    (hwf : wellFormedTiers tiers) (hsh : sharesIn01 tiers) :
    (∀ g₁ g₂ : ℚ, 0 ≤ g₁ → g₁ ≤ g₂ →
        waterfallFee tiers aum g₁ ≤ waterfallFee tiers aum g₂) ∧
    (∀ ε : ℚ, 0 < ε → ∃ δ : ℚ, 0 < δ ∧ ∀ g₁ g₂ : ℚ, 0 ≤ g₁ → 0 ≤ g₂ →
        |g₁ - g₂| < δ →
        |waterfallFee tiers aum g₁ - waterfallFee tiers aum g₂| < ε) ∧
    waterfallFee tiers aum 0 = 0 := by
  have _ := hwf
  have hne : aum ≠ 0 := ne_of_gt haum
  have hsh₀ : ∀ t ∈ tiers, 0 ≤ t.manager_share := fun t h => (hsh t h).1
  have hsh₁ : ∀ t ∈ tiers, t.manager_share ≤ 1 := fun t h => (hsh t h).2
  have hmono : ∀ g₁ g₂ : ℚ, g₁ ≤ g₂ →
      waterfallFee tiers aum g₁ ≤ waterfallFee tiers aum g₂ := by
    intro g₁ g₂ h12
    have hdiv : g₁ / aum ≤ g₂ / aum := by gcongr
    exact mul_le_mul_of_nonneg_right
      (waterfallLoop_mono tiers 0 _ _ hsh₀ hdiv) haum.le
  have hlip : ∀ g₁ g₂ : ℚ, g₁ ≤ g₂ →
      waterfallFee tiers aum g₂ - waterfallFee tiers aum g₁ ≤ g₂ - g₁ := by
    intro g₁ g₂ h12
    have hdiv : g₁ / aum ≤ g₂ / aum := by gcongr
    have h := waterfallLoop_lipschitz tiers 0 (g₁ / aum) (g₂ / aum) hsh₁ hdiv
    have h' := mul_le_mul_of_nonneg_right h haum.le
    calc waterfallFee tiers aum g₂ - waterfallFee tiers aum g₁
        = (waterfallLoop tiers 0 (g₂ / aum) 0 -
            waterfallLoop tiers 0 (g₁ / aum) 0) * aum := by
          simp [waterfallFee]; ring
      _ ≤ (g₂ / aum - g₁ / aum) * aum := h'
      _ = g₂ - g₁ := by field_simp
  have habs : ∀ g₁ g₂ : ℚ,
      |waterfallFee tiers aum g₁ - waterfallFee tiers aum g₂| ≤ |g₁ - g₂| := by
    intro g₁ g₂
    rcases le_total g₁ g₂ with h | h
    · rw [abs_sub_comm (waterfallFee tiers aum g₁) (waterfallFee tiers aum g₂),
        abs_of_nonneg (sub_nonneg.mpr (hmono g₁ g₂ h)), abs_sub_comm g₁ g₂,
        abs_of_nonneg (sub_nonneg.mpr h)]
      exact hlip g₁ g₂ h
    · rw [abs_of_nonneg (sub_nonneg.mpr (hmono g₂ g₁ h)),
        abs_of_nonneg (sub_nonneg.mpr h)]
      exact hlip g₂ g₁ h
  refine ⟨fun g₁ g₂ _ h => hmono g₁ g₂ h, ?_, ?_⟩
  · intro ε hε
    exact ⟨ε, hε, fun g₁ g₂ _ _ hd => lt_of_le_of_lt (habs g₁ g₂) hd⟩
  · simp [waterfallFee, waterfallLoop_zero]

/-- Witness for C4 on a two-tier list (boundary at 1% of AUM, unbounded
second tier): hypotheses hold and the fee at zero gain is zero. -/
theorem c4_waterfall_props_witness :
    (0 : ℚ) < 100 ∧
    wellFormedTiers [⟨some (1/100), (1/2 : ℚ)⟩, ⟨none, 1/5⟩] ∧
    sharesIn01 [⟨some (1/100), (1/2 : ℚ)⟩, ⟨none, 1/5⟩] ∧
    waterfallFee [⟨some (1/100), (1/2 : ℚ)⟩, ⟨none, 1/5⟩] 100 0 = 0 := by
  have hwf : wellFormedTiers [⟨some (1/100), (1/2 : ℚ)⟩, ⟨none, 1/5⟩] :=
    ⟨1/100, rfl, by norm_num, rfl⟩
  have hsh : sharesIn01 [⟨some (1/100), (1/2 : ℚ)⟩, ⟨none, 1/5⟩] := by
    intro t ht
    rcases List.mem_cons.mp ht with rfl | ht
    · norm_num
    · rcases List.mem_cons.mp ht with rfl | ht
      · norm_num
      · exact absurd ht (List.not_mem_nil t)
  exact ⟨by norm_num, hwf, hsh,
    (c4_waterfall_props _ 100 (by norm_num) hwf hsh).2.2⟩

/-- C9 counterexample: a tier list inside the claimed domain (shares in
`[0,1]`) with two consecutive unbounded tiers and positive gain.  The
source consumes the whole remaining gain on the first unbounded tier
(`lower` becomes `inf`), then computes `slice_width = min(inf - inf, 0) =
NaN` on the second, does not break (`NaN <= 0` is false), and the fee is
`NaN` — so `0 <= fee` fails under the float order. -/
theorem c9_two_unbounded_nan :
    sharesIn01 [⟨none, (1/2 : ℚ)⟩, ⟨none, 1/2⟩] ∧
    waterfallFeePy [⟨none, (1/2 : ℚ)⟩, ⟨none, 1/2⟩] 100 5 = PyFloat.nan ∧
    pyle (PyFloat.num 0)
      (waterfallFeePy [⟨none, (1/2 : ℚ)⟩, ⟨none, 1/2⟩] 100 5) = false := by
  have hsh : sharesIn01 [⟨none, (1/2 : ℚ)⟩, ⟨none, 1/2⟩] := by
    intro t ht
    rcases List.mem_cons.mp ht with rfl | ht
    · norm_num
    · rcases List.mem_cons.mp ht with rfl | ht
      · norm_num
      · exact absurd ht (List.not_mem_nil t)
  have hnan : waterfallFeePy [⟨none, (1/2 : ℚ)⟩, ⟨none, 1/2⟩] 100 5 =
      PyFloat.nan := by
    norm_num [waterfallFeePy, waterfallLoopPy, pymin, pylt, pyle,
      PyFloat.sub, PyFloat.add, PyFloat.smul]
  exact ⟨hsh, hnan, by rw [hnan]; rfl⟩

/-- C9 amended: for every tier list with shares in `[0,1]` in which no
unbounded tier is immediately followed by another unbounded tier (empty,
unordered or bounded-last lists included), positive starting AUM and
non-negative gain, the float loop of the source returns the finite
rational fee, which lies between `0` and the gain; with no tiers the fee
is zero; and for a bounded ascending tier list the fee is constant once
the gain covers the last threshold (gain above it accrues no fee).  With
two adjacent unbounded tiers the source instead produces `NaN`
(`c9_two_unbounded_nan`). -/
theorem c9_waterfall_bounds :
    (∀ (tiers : List Tier) (aum g : ℚ), sharesIn01 tiers →
        noConsecutiveUnbounded tiers → 0 < aum → 0 ≤ g →
        waterfallFeePy tiers aum g = PyFloat.num (waterfallFee tiers aum g) ∧
        0 ≤ waterfallFee tiers aum g ∧ waterfallFee tiers aum g ≤ g) ∧
    (∀ aum g : ℚ, waterfallFee [] aum g = 0) ∧
    (∀ (tiers : List Tier) (aum g₁ g₂ T : ℚ), boundedAscFrom 0 tiers →
        lastThresholdIs tiers T → 0 < aum → T * aum ≤ g₁ → T * aum ≤ g₂ →
        waterfallFee tiers aum g₁ = waterfallFee tiers aum g₂) := by
  refine ⟨?_, ?_, ?_⟩
  · intro tiers aum g hsh hnc haum hg
    have hsh₀ : ∀ t ∈ tiers, 0 ≤ t.manager_share := fun t h => (hsh t h).1
    have hsh₁ : ∀ t ∈ tiers, t.manager_share ≤ 1 := fun t h => (hsh t h).2
    refine ⟨waterfallFeePy_agrees tiers aum g hnc, ?_, ?_⟩
    · exact mul_nonneg (waterfallLoop_nonneg tiers 0 _ hsh₀) haum.le
    · have h := waterfallLoop_le tiers 0 (g / aum) hsh₁
      rw [max_eq_left (div_nonneg hg haum.le)] at h
      calc waterfallFee tiers aum g ≤ g / aum * aum :=
            mul_le_mul_of_nonneg_right h haum.le
        _ = g := div_mul_cancel₀ g (ne_of_gt haum)
  · intro aum g
    simp [waterfallFee, waterfallLoop]
  · intro tiers aum g₁ g₂ T hasc hlast haum h₁ h₂
    have hd₁ : T ≤ g₁ / aum := (le_div_iff₀ haum).mpr h₁
    have hd₂ : T ≤ g₂ / aum := (le_div_iff₀ haum).mpr h₂
    unfold waterfallFee
    rw [waterfallLoop_freeze tiers 0 T (g₁ / aum) (g₂ / aum) 0 hasc hlast
      (by linarith) (by linarith)]

/-- Witness for C9: one bounded tier `⟨1%, 50%⟩` on AUM 200 with gain 5
(well past the tier): the float loop returns the finite fee, it lies
between 0 and 5, and the fee freezes at the tier boundary
`1% * 200 = 2`. -/
theorem c9_waterfall_bounds_witness :
    sharesIn01 [⟨some (1/100), (1/2 : ℚ)⟩] ∧
    noConsecutiveUnbounded [⟨some (1/100), (1/2 : ℚ)⟩] ∧
    (0 : ℚ) < 200 ∧ (0 : ℚ) ≤ 5 ∧
    (waterfallFeePy [⟨some (1/100), (1/2 : ℚ)⟩] 200 5 =
        PyFloat.num (waterfallFee [⟨some (1/100), (1/2 : ℚ)⟩] 200 5) ∧
      0 ≤ waterfallFee [⟨some (1/100), (1/2 : ℚ)⟩] 200 5 ∧
      waterfallFee [⟨some (1/100), (1/2 : ℚ)⟩] 200 5 ≤ 5) ∧
    waterfallFee [⟨some (1/100), (1/2 : ℚ)⟩] 200 5 =
      waterfallFee [⟨some (1/100), (1/2 : ℚ)⟩] 200 3 := by
  have hsh : sharesIn01 [⟨some (1/100), (1/2 : ℚ)⟩] := by
    intro t ht
    rcases List.mem_cons.mp ht with rfl | ht
    · norm_num
    · exact absurd ht (List.not_mem_nil t)
  refine ⟨hsh, trivial, by norm_num, by norm_num,
    c9_waterfall_bounds.1 _ 200 5 hsh trivial (by norm_num) (by norm_num), ?_⟩
  exact c9_waterfall_bounds.2.2 _ 200 5 3 (1/100)
    ⟨1/100, rfl, by norm_num, trivial⟩ rfl (by norm_num) (by norm_num)
    (by norm_num)

/-! ## Claims about the scheme engine -/

/-- C1: for a non-tiered scheme with positive `gain_excess`, the
per-period performance fee is `perf_rate * max(0, gross - hurdle_rate/12) * aum_start`
(computed from the raw monthly gross return, gated by the baseline /
high-water-mark excess test); and on the end-to-end scenario
(`initial_aum = 1000000`, flat scheme `mgmt=0.02, perf=0.20, hurdle=0,
hwm=true`, one observation `gross = 0.05`) the engine emits
`mgmt_fee = 5000/3 ≈ 1666.67`, `perf_fee = 10000`,
`aum_end = 3115000/3 ≈ 1038333.33` and `net_return = 23/600 ≈ 0.038333`. -/
theorem c1_flat_perf_fee_and_scenario :
    (∀ (s : Scheme) (st : SimState) (g : ℚ), s.tiered = false →
        0 < gainExcess s st g →
        (stepScheme s st g).1.perfFeeRevenue =
          s.perf * max 0 (g - s.hurdle / 12) * st.aum) ∧
    simulate ⟨true, false, [], 1/50, 1/5, 0⟩ 1000000 [1/20] =
      [⟨1/20, 23/600, 5000/3, 10000, 3115000/3⟩] := by
  constructor
  · intro s st g ht hg
    simp [stepScheme, perfFee, ht, hg]
  · norm_num [simulate, runScheme, stepScheme, mgmtFee, perfFee, gainExcess,
      waterfallFee, waterfallLoop]

/-- Witness for C1 at the scenario input: the `gain_excess > 0` gate holds
and the theorem yields the flat-formula fee `10000`. -/
theorem c1_flat_perf_fee_and_scenario_witness :
    0 < gainExcess ⟨true, false, [], 1/50, 1/5, 0⟩ ⟨1000000, 1000000⟩ (1/20) ∧
    (stepScheme ⟨true, false, [], 1/50, 1/5, 0⟩ ⟨1000000, 1000000⟩
        (1/20)).1.perfFeeRevenue =
      (1/5 : ℚ) * max 0 (1/20 - 0 / 12) * 1000000 :=
  ⟨by norm_num [gainExcess],
   c1_flat_perf_fee_and_scenario.1 _ _ _ rfl (by norm_num [gainExcess])⟩

/-- C2 counterexample: a tiered scheme whose configuration carries
`mgmt_rate = 0.03` is charged a non-zero management fee
(`0.03 / 12 * 1200 = 3`): engine.py line 24 computes the management fee
before, and independently of, the `tiered` test. -/
theorem c2_tiered_mgmt_counterexample :
    (stepScheme ⟨false, true, [⟨none, 1/2⟩], 3/100, 0, 0⟩
        ⟨1200, 1200⟩ 0).1.mgmtFeeRevenue = 3 ∧ (3 : ℚ) ≠ 0 := by
  constructor
  · norm_num [stepScheme, mgmtFee]
  · norm_num

/-- C2 amended: the management fee is charged as `mgmt_rate / 12 *
aum_start` on every scheme, tiered or not; when `is_tiered` is true only
`perf_rate` and `hurdle_rate` are inert, so two tiered configurations that
agree on `hwm`, `tiers` and `mgmt_rate` (but may differ in `perf_rate` and
`hurdle_rate`) produce identical simulation output. -/
theorem c2_tiered_inert_fields :
    (∀ (s : Scheme) (st : SimState) (g : ℚ),
        (stepScheme s st g).1.mgmtFeeRevenue = s.mgmt / 12 * st.aum) ∧
    (∀ s₁ s₂ : Scheme, s₁.tiered = true → s₂.tiered = true →
        s₁.hwm = s₂.hwm → s₁.tiers = s₂.tiers → s₁.mgmt = s₂.mgmt →
        ∀ (a₀ : ℚ) (gs : List ℚ), simulate s₁ a₀ gs = simulate s₂ a₀ gs) := by
  constructor
  · intro s st g
    simp [stepScheme, mgmtFee]
  · intro s₁ s₂ ht₁ ht₂ hh htr hm a₀ gs
    have hstep : ∀ (st : SimState) (g : ℚ),
        stepScheme s₁ st g = stepScheme s₂ st g := by
      intro st g
      simp [stepScheme, mgmtFee, perfFee, gainExcess, ht₁, ht₂, hh, htr, hm]
    suffices h : ∀ (st : SimState) (l : List ℚ),
        runScheme s₁ st l = runScheme s₂ st l from h _ gs
    intro st l
    induction l generalizing st with
    | nil => rfl
    | cons g l ih => simp [runScheme, hstep, ih]

/-- Witness for the amended theorem of C2: two concrete tiered schemes that
differ only in `perf_rate` and `hurdle_rate` simulate identically. -/
theorem c2_tiered_inert_fields_witness :
    simulate ⟨true, true, [⟨some (1/100), 1/2⟩, ⟨none, 1/5⟩], 1/100, 1/5, 0⟩
        1000 [1/10, -1/20] =
      simulate ⟨true, true, [⟨some (1/100), 1/2⟩, ⟨none, 1/5⟩], 1/100, 99/100, 7/10⟩
        1000 [1/10, -1/20] :=
  c2_tiered_inert_fields.2 _ _ rfl rfl rfl rfl rfl 1000 [1/10, -1/20]

/-- C3: when `uses_high_water_mark` is true the high-water mark carried by
the simulation state is non-decreasing across periods, for every scheme,
every positive initial AUM and every return sequence. -/
theorem c3_hwm_nondecreasing (s : Scheme) (a₀ : ℚ) (gs : List ℚ)
    (hs : s.hwm = true) (ha : 0 < a₀) :
    (simStates s a₀ gs).Pairwise (fun a b => a.hwm_value ≤ b.hwm_value) := by
  have _ := hs
  have _ := ha
  exact hwm_pairwise_scanl s gs ⟨a₀, a₀⟩

/-- Witness for C3 on a concrete run with a gain, a crash and a rebound. -/
theorem c3_hwm_nondecreasing_witness :
    Scheme.hwm ⟨true, false, [], 1/50, 1/5, 0⟩ = true ∧ (0 : ℚ) < 50 ∧
    (simStates ⟨true, false, [], 1/50, 1/5, 0⟩ 50 [1/10, -1/2, 1/4]).Pairwise
      (fun a b => a.hwm_value ≤ b.hwm_value) :=
  ⟨rfl, by norm_num, c3_hwm_nondecreasing _ 50 _ rfl (by norm_num)⟩

/-- C6 counterexample: a flat scheme with `perf_rate = 0`,
`mgmt_rate = 0.02`, one observation `gross = 0.05` on AUM `1000000` emits
`net_return = 29/600 ≈ 0.0483` (the gross return net of the management
fee), not `-mgmt_rate/12 = -1/600`. -/
theorem c6_net_return_counterexample :
    (simulate ⟨true, false, [], 1/50, 0, 0⟩ 1000000 [1/20]).map
        PeriodResult.netReturn = [29/600] ∧
    (29/600 : ℚ) ≠ -((1/50 : ℚ) / 12) := by
  constructor
  · norm_num [simulate, runScheme, stepScheme, mgmtFee, perfFee, gainExcess]
  · norm_num

/-- C6 amended: for every non-tiered scheme with `perf_rate = 0`, any
gross return, and any positive initial AUM, the single-period net return is
`gross_return - mgmt_rate / 12` (the claimed `-mgmt_rate/12` is the special
case `gross_return = 0`). -/
theorem c6_single_period_net_return (s : Scheme) (g a₀ : ℚ)
    (ht : s.tiered = false) (hp : s.perf = 0) (ha : 0 < a₀) :
    (simulate s a₀ [g]).map PeriodResult.netReturn = [g - s.mgmt / 12] := by
  have ha' : a₀ ≠ 0 := ne_of_gt ha
  simp only [simulate, runScheme, stepScheme, mgmtFee, perfFee, ht, hp,
    List.map_cons, List.map_nil]
  norm_num
  field_simp
  ring

/-- Witness for the amended theorem of C6: `gross = 0.05`, `mgmt = 0.02` gives
net return `29/600`. -/
theorem c6_single_period_net_return_witness :
    (simulate ⟨true, false, [], 1/50, 0, 0⟩ 1000000 [1/20]).map
        PeriodResult.netReturn = [(1/20 : ℚ) - (1/50) / 12] :=
  c6_single_period_net_return ⟨true, false, [], 1/50, 0, 0⟩ (1/20) 1000000
    rfl rfl (by norm_num)

/-! ## The metric routines

`feesim/metrics.py` and `performance_metrics` in `feesim/engine.py` take
square roots, so they are embedded over `ℝ`.  A computation that can raise
(numpy shape mismatch) or return the `NaN` sentinel lands in
`MetricResult`. -/

/-- Result of a metric computation: `err` models a raised exception, `nan`
the `NaN` sentinel, `val` a numeric value. -/
inductive MetricResult where
  | err : MetricResult
  | nan : MetricResult
  | val : ℝ → MetricResult

noncomputable section

/-- Arithmetic mean (`np.mean`, pandas `.mean()`); the empty mean is `0/0
= 0` here where numpy warns and yields `nan` — no claim touches the empty
case. -/
def listMean (xs : List ℝ) : ℝ := xs.sum / xs.length

/-- Population variance (`ddof=0`), the square of `np.std(·)` and of
pandas `.std(ddof=0)`. -/
def pvariance (xs : List ℝ) : ℝ :=
  ((xs.map fun x => (x - listMean xs) ^ 2).sum) / xs.length

/-- Population standard deviation. -/
def pstd (xs : List ℝ) : ℝ := Real.sqrt (pvariance xs)

/-- Elementwise numpy binary operation on two 1-D arrays: equal lengths
pair up; a length-1 operand broadcasts; any other mismatch raises
`ValueError`, modelled as `none`. -/
def npBinop (f : ℝ → ℝ → ℝ) (a b : List ℝ) : Option (List ℝ) :=
  if a.length = b.length then some (List.zipWith f a b)
  else
    match a, b with
    | [x], ys => some (ys.map fun y => f x y)
    | xs, [y] => some (xs.map fun x => f x y)
    | _, _ => none

/-- `net_returns - bench_returns` on numpy arrays. -/
def npSub : List ℝ → List ℝ → Option (List ℝ) := npBinop (· - ·)

/-- Elementwise numpy product. -/
def npMul : List ℝ → List ℝ → Option (List ℝ) := npBinop (· * ·)

/-- `tracking_error` (metrics.py lines 5-19):
`np.std(net - bench, ddof=0) * np.sqrt(12)`. -/
def tracking_error (net_returns bench_returns : List ℝ) : MetricResult :=
  match npSub net_returns bench_returns with
  | none => MetricResult.err
  | some diff => MetricResult.val (pstd diff * Real.sqrt 12)

/-- `information_ratio` (metrics.py lines 22-38): `NaN` when `te == 0`,
else `(net_ann - bench_ann) / te`. -/
def information_ratio (net_ann bench_ann te : ℝ) : MetricResult :=
  if te = 0 then MetricResult.nan
  else MetricResult.val ((net_ann - bench_ann) / te)

/-- The sample variance (`ddof=1`) of a series, the denominator
`var_bench` of `beta` (metrics.py line 58). -/
def varSample (xs : List ℝ) : ℝ :=
  ((xs.map fun x => (x - listMean xs) ^ 2).sum) / (xs.length - 1)

/-- `beta` (metrics.py lines 41-61): sample covariance over sample
benchmark variance, `NaN` when the latter is zero; the centred product is
a numpy elementwise product, so it broadcasts. -/
def beta (net_returns bench_returns : List ℝ) : MetricResult :=
  match npMul (net_returns.map fun x => x - listMean net_returns)
      (bench_returns.map fun y => y - listMean bench_returns) with
  | none => MetricResult.err
  | some prods =>
    if varSample bench_returns = 0 then MetricResult.nan
    else MetricResult.val
      ((prods.sum / (net_returns.length - 1)) / varSample bench_returns)

/-- `ann_ret = (prod(1+r))^(12/N) - 1` (engine.py line 84; also
`annualize_return` in metrics.py). -/
def ann_return (xs : List ℝ) : ℝ :=
  ((xs.map fun r => 1 + r).prod) ^ ((12 : ℝ) / xs.length) - 1

/-- `ann_vol = monthly_net.std(ddof=0) * np.sqrt(12)` (engine.py
line 86). -/
def ann_vol (xs : List ℝ) : ℝ := pstd xs * Real.sqrt 12

/-- `sharpe = (ann_ret - rf) / ann_vol if ann_vol else np.nan` (engine.py
line 88); float truthiness in Python is `≠ 0`. -/
def sharpe (xs : List ℝ) (rf : ℝ) : MetricResult :=
  if ann_vol xs = 0 then MetricResult.nan
  else MetricResult.val ((ann_return xs - rf) / ann_vol xs)

/-- `downside = monthly_net[monthly_net < 0]` (engine.py line 90). -/
def downside (xs : List ℝ) : List ℝ := xs.filter fun r => decide (r < 0)

/-- `dd = np.sqrt((downside**2).mean()) * np.sqrt(12) if len(downside) > 0
else 0.0` (engine.py line 91). -/
def downside_dev (xs : List ℝ) : ℝ :=
  if 0 < (downside xs).length then
    Real.sqrt (listMean ((downside xs).map fun r => r ^ 2)) * Real.sqrt 12
  else 0

/-- `sortino = (ann_ret - rf) / dd if dd else np.nan` (engine.py
line 92). -/
def sortino (xs : List ℝ) (rf : ℝ) : MetricResult :=
  if downside_dev xs = 0 then MetricResult.nan
  else MetricResult.val ((ann_return xs - rf) / downside_dev xs)

end

/-! ## Helper lemmas on the metrics -/

/-- Subtracting a list from itself elementwise gives the zero list. -/
lemma zipWith_sub_self (l : List ℝ) :
    List.zipWith (· - ·) l l = List.replicate l.length 0 := by
  induction l with
  | nil => rfl
  | cons x l ih => simp [ih, List.replicate_succ]

/-- Squaring a list elementwise against itself. -/
lemma zipWith_mul_self (l : List ℝ) :
    List.zipWith (· * ·) l l = l.map fun x => x ^ 2 := by
  induction l with
  | nil => rfl
  | cons x l ih => simp [ih, sq]

/-- The population standard deviation of an all-zero list is zero. -/
lemma pstd_replicate_zero (n : ℕ) : pstd (List.replicate n (0 : ℝ)) = 0 := by
  unfold pstd pvariance listMean
  simp

/-! ## Claims about the metrics -/

/-- C5: each ratio yields the `NaN` sentinel — not an exception — exactly
when its denominator is zero: Sharpe vs annualized volatility, Sortino vs
downside deviation, information ratio vs tracking error, and (for aligned
series) beta vs benchmark sample variance. -/
theorem c5_nan_sentinel_iff_zero_denominator :
    (∀ (xs : List ℝ) (rf : ℝ), sharpe xs rf = MetricResult.nan ↔ ann_vol xs = 0) ∧
    (∀ (xs : List ℝ) (rf : ℝ),
      sortino xs rf = MetricResult.nan ↔ downside_dev xs = 0) ∧
    (∀ net_ann bench_ann te : ℝ,
      information_ratio net_ann bench_ann te = MetricResult.nan ↔ te = 0) ∧
    (∀ net bench : List ℝ, net.length = bench.length →
      (beta net bench = MetricResult.nan ↔ varSample bench = 0)) := by
  refine ⟨fun xs rf => ?_, fun xs rf => ?_, fun a b te => ?_,
    fun net bench h => ?_⟩
  · unfold sharpe
    split_ifs with hv <;> simp [hv]
  · unfold sortino
    split_ifs with hv <;> simp [hv]
  · unfold information_ratio
    split_ifs with hv <;> simp [hv]
  · unfold beta npMul npBinop
    rw [if_pos (by simp [h])]
    split_ifs with hv <;> simp [hv]

/-- Witness for the beta clause of C5 on a constant benchmark of matching
length: the sample variance vanishes and beta is the sentinel. -/
theorem c5_nan_sentinel_witness :
    ([(1 : ℝ), 2].length = [(1/2 : ℝ), 1/2].length) ∧
    varSample [(1/2 : ℝ), 1/2] = 0 ∧
    beta [(1 : ℝ), 2] [(1/2 : ℝ), 1/2] = MetricResult.nan := by
  have hvar : varSample [(1/2 : ℝ), 1/2] = 0 := by
    norm_num [varSample, listMean]
  exact ⟨rfl, hvar,
    (c5_nan_sentinel_iff_zero_denominator.2.2.2 [(1 : ℝ), 2]
      [(1/2 : ℝ), 1/2] rfl).mpr hvar⟩

/-- C7: the benchmark comparison has no explicit length check: a
2-element strategy series against a 1-element benchmark series — unequal
lengths — broadcasts the single benchmark value and `tracking_error`
returns the computed value `sqrt 12 / 10` instead of raising. -/
theorem c7_mismatched_lengths_computed :
    tracking_error [(1/10 : ℝ), 3/10] [0] =
      MetricResult.val (Real.sqrt 12 / 10) ∧
    tracking_error [(1/10 : ℝ), 3/10] [0] ≠ MetricResult.err := by
  have hd : npSub [(1/10 : ℝ), 3/10] [0] = some [1/10, 3/10] := by
    norm_num [npSub, npBinop]
  have hp : pvariance [(1/10 : ℝ), 3/10] = 1/100 := by
    norm_num [pvariance, listMean]
  have hs : pstd [(1/10 : ℝ), 3/10] = 1/10 := by
    rw [pstd, hp, show (1/100 : ℝ) = (1/10)^2 by norm_num,
      Real.sqrt_sq (by norm_num)]
  have hv : tracking_error [(1/10 : ℝ), 3/10] [0] =
      MetricResult.val (Real.sqrt 12 / 10) := by
    rw [tracking_error, hd]
    dsimp only
    rw [hs]
    congr 1
    ring
  exact ⟨hv, by rw [hv]; exact fun hc => MetricResult.noConfusion hc⟩

/-- C8: comparing a series against itself: beta is `1` whenever the
sample variance is non-zero, the tracking error is exactly `0`, and the
information ratio at zero tracking error is the `NaN` sentinel. -/
theorem c8_self_comparison (X : List ℝ) (hlen : 2 ≤ X.length) :
    (varSample X ≠ 0 → beta X X = MetricResult.val 1) ∧
    tracking_error X X = MetricResult.val 0 ∧
    information_ratio (ann_return X) (ann_return X) 0 = MetricResult.nan := by
  have _ := hlen
  refine ⟨fun hv => ?_, ?_, ?_⟩
  · unfold beta npMul npBinop
    rw [if_pos rfl]
    simp only [zipWith_mul_self, List.map_map]
    rw [if_neg hv]
    congr 1
    have hnum : (List.map ((fun x => x ^ 2) ∘ fun x => x - listMean X) X).sum /
        ((X.length : ℝ) - 1) = varSample X := by
      simp only [Function.comp_def]
      rw [varSample]
    rw [hnum]
    exact div_self hv
  · unfold tracking_error npSub npBinop
    rw [if_pos rfl]
    simp only [zipWith_sub_self, pstd_replicate_zero, zero_mul]
  · unfold information_ratio
    simp

/-- Witness for C8 on the series `[0, 1]`. -/
theorem c8_self_comparison_witness :
    2 ≤ ([(0 : ℝ), 1]).length ∧ varSample [(0 : ℝ), 1] ≠ 0 ∧
    beta [(0 : ℝ), 1] [(0 : ℝ), 1] = MetricResult.val 1 ∧
    tracking_error [(0 : ℝ), 1] [(0 : ℝ), 1] = MetricResult.val 0 := by
  have hvar : varSample [(0 : ℝ), 1] ≠ 0 := by
    norm_num [varSample, listMean]
  have h := c8_self_comparison [(0 : ℝ), 1] (by norm_num)
  exact ⟨by norm_num, hvar, h.1 hvar, h.2.1⟩

/-- C10: on the non-tiered path with a high-water mark, a loss period
followed by a recovery that barely clears the mark yields a performance fee
far above the value created over the mark: after losing half of 1000000,
a `+100.2%` month ends `1000` above the mark, yet the fee charged is
`perf * gross * aum_start = 100200`. -/
theorem c10_perf_fee_exceeds_hwm_gain :
    gainExcess ⟨true, false, [], 0, 1/5, 0⟩
        ((stepScheme ⟨true, false, [], 0, 1/5, 0⟩ ⟨1000000, 1000000⟩
          (-(1/2))).2) (501/500) = 1000 ∧
    (stepScheme ⟨true, false, [], 0, 1/5, 0⟩
        ((stepScheme ⟨true, false, [], 0, 1/5, 0⟩ ⟨1000000, 1000000⟩
          (-(1/2))).2) (501/500)).1.perfFeeRevenue = 100200 ∧
    (1000 : ℚ) < 100200 := by
  norm_num [stepScheme, gainExcess, perfFee, mgmtFee]

